import Mathlib

/-!
# Verification of the `ts-concordium-schema` binary schema decoder

A shallow embedding of `src/index.ts`: the Concordium contract-schema
binary decoder. Byte streams are modelled as `List Nat` (each element a
byte value), and every `deserial*` function of the source becomes a
state-passing function `List Nat → Except Err α × List Nat` that returns
either a decoded value or an error, together with the bytes that remain
after the call (on error, the bytes that remained at the point the
exception was raised).

The byte-acquisition layer (`source.read(n)` on a Node.js `Readable`) is
not part of the repository's own sources; it is modelled from the spec's
Byte Reader contract (§4.1): an exact-length read that accumulates bytes
across chunk deliveries and fails with an end-of-input condition when the
source is exhausted.
-/

namespace ConcordiumSchema

/-- The failure conditions of a decode, following the spec's error
taxonomy (§7).  `fuelExhausted` is not a source error: it is the marker
returned by the fuel-indexed approximations of the recursive `Type` and
`Fields` decoders when their fuel runs out, and is proved unreachable for
sufficient fuel. -/
inductive Err where
  | endOfInput : Err
  | unsupportedTypeTag (tag : Nat) : Err
  | unsupportedFieldsTag (tag : Nat) : Err
  | unsupportedOptionTag (tag : Nat) : Err
  | fuelExhausted : Err
deriving DecidableEq

/-- Result of running a decoder on a byte list: the decoded value or an
error, paired with the remaining bytes. -/
abbrev DRes (α : Type) := Except Err α × List Nat

/-- Sequential composition of decoders: run `x`, and on success feed its
value and remaining bytes to `f`; on failure propagate the error with the
state at the failure point, mirroring a thrown JS exception. -/
def dbind {α β : Type} (x : List Nat → DRes α) (f : α → List Nat → DRes β) :
    List Nat → DRes β := fun s =>
  match x s with
  | (.ok a, s') => f a s'
  | (.error e, s') => (.error e, s')

theorem dbind_ok {α β : Type} {x : List Nat → DRes α}
    {f : α → List Nat → DRes β} {s s' : List Nat} {a : α}
    (h : x s = (.ok a, s')) : dbind x f s = f a s' := by
  unfold dbind; rw [h]

theorem dbind_error {α β : Type} {x : List Nat → DRes α}
    {f : α → List Nat → DRes β} {s s' : List Nat} {e : Err}
    (h : x s = (.error e, s')) : dbind x f s = (.error e, s') := by
  unfold dbind; rw [h]

/-- Decoder that consumes nothing and returns `a`. -/
def dpure {α : Type} (a : α) : List Nat → DRes α := fun s => (.ok a, s)

/-- Decoder that fails with `e`, consuming nothing (a thrown exception). -/
def derror {α : Type} (e : Err) : List Nat → DRes α := fun s => (.error e, s)

/-- Modelled from the spec: the Byte Reader's `read_exact(n)` (§4.1) over
the bytes currently available from the source.  The repository's sources
delegate this to `Readable.read(n)`, which is not part of src/; per the
spec it must return exactly `n` bytes, or fail with the
`UnexpectedEndOfInput` condition when the source closed with fewer than
`n` bytes available, consuming nothing in that case. -/
def readExact (n : Nat) : List Nat → DRes (List Nat) := fun s =>
  if n ≤ s.length then (.ok (s.take n), s.drop n) else (.error .endOfInput, s)

/-- `deserialUint8`: reads one byte (`source.read(1).readUInt8(0)`). -/
def deserialUint8 : List Nat → DRes Nat :=
  dbind (readExact 1) (fun bs => dpure (bs.headD 0))

/-- Little-endian interpretation of a byte list (first byte least
significant), as done by `Buffer.readUInt32LE`. -/
def leU32 (bs : List Nat) : Nat := bs.foldr (fun b acc => b + 256 * acc) 0

/-- `deserialUint32`: reads four bytes, little-endian
(`source.read(4).readUInt32LE(0)`). -/
def deserialUint32 : List Nat → DRes Nat :=
  dbind (readExact 4) (fun bs => dpure (leU32 bs))

/-- UTF-8 decoding of a byte list, as performed by `TextDecoder.decode`
in non-fatal mode: well-formed sequences decode to their code point,
malformed bytes are replaced by U+FFFD.  (The spec marks the malformed
UTF-8 policy as non-normative; no claim depends on the malformed cases.) -/
def utf8Decode : List Nat → List Char
  | [] => []
  | b :: rest =>
    if b < 0x80 then Char.ofNat b :: utf8Decode rest
    else if 0xC2 ≤ b ∧ b ≤ 0xDF then
      match rest with
      | b2 :: rest2 =>
        if 0x80 ≤ b2 ∧ b2 ≤ 0xBF then
          Char.ofNat ((b - 0xC0) * 0x40 + (b2 - 0x80)) :: utf8Decode rest2
        else Char.ofNat 0xFFFD :: utf8Decode (b2 :: rest2)
      | [] => [Char.ofNat 0xFFFD]
    else if 0xE0 ≤ b ∧ b ≤ 0xEF then
      match rest with
      | b2 :: b3 :: rest3 =>
        if (0x80 ≤ b2 ∧ b2 ≤ 0xBF) ∧ (0x80 ≤ b3 ∧ b3 ≤ 0xBF) then
          Char.ofNat ((b - 0xE0) * 0x1000 + (b2 - 0x80) * 0x40 + (b3 - 0x80))
            :: utf8Decode rest3
        else Char.ofNat 0xFFFD :: utf8Decode (b2 :: b3 :: rest3)
      | _ => [Char.ofNat 0xFFFD]
    else if 0xF0 ≤ b ∧ b ≤ 0xF4 then
      match rest with
      | b2 :: b3 :: b4 :: rest4 =>
        if (0x80 ≤ b2 ∧ b2 ≤ 0xBF) ∧ (0x80 ≤ b3 ∧ b3 ≤ 0xBF)
            ∧ (0x80 ≤ b4 ∧ b4 ≤ 0xBF) then
          Char.ofNat ((b - 0xF0) * 0x40000 + (b2 - 0x80) * 0x1000
              + (b3 - 0x80) * 0x40 + (b4 - 0x80)) :: utf8Decode rest4
        else Char.ofNat 0xFFFD :: utf8Decode (b2 :: b3 :: b4 :: rest4)
      | _ => [Char.ofNat 0xFFFD]
    else Char.ofNat 0xFFFD :: utf8Decode rest

/-- `deserialTupleFn`: reads the left value, then the right value, in that
fixed order, with no length prefix. -/
def deserialTupleFn {L R : Type} (deserialLeft : List Nat → DRes L)
    (deserialRight : List Nat → DRes R) : List Nat → DRes (L × R) :=
  dbind deserialLeft (fun l => dbind deserialRight (fun r => dpure (l, r)))

/-- The element loop of `deserialArrayFn`: invokes `deserial` exactly `n`
times in order, collecting the results. -/
def repDeserial {T : Type} (deserial : List Nat → DRes T) :
    Nat → List Nat → DRes (List T)
  | 0 => dpure []
  | n + 1 =>
    dbind deserial (fun a =>
      dbind (repDeserial deserial n) (fun as => dpure (a :: as)))

/-- `deserialArrayFn`: reads a `u32` length, then that many elements. -/
def deserialArrayFn {T : Type} (deserial : List Nat → DRes T) :
    List Nat → DRes (List T) :=
  dbind deserialUint32 (fun len => repDeserial deserial len)

/-- `deserialString`: reads a `u32`-length-prefixed byte array and decodes
it as UTF-8 text. -/
def deserialString : List Nat → DRes String :=
  dbind (deserialArrayFn deserialUint8)
    (fun bytes => dpure (String.mk (utf8Decode bytes)))

/-- A JS object (`Record<K, V>`) modelled as an association list whose
keys are unique, in first-insertion order. -/
abbrev Rec (K V : Type) := List (K × V)

/-- JS property assignment `obj[k] = v`: if `k` is already a key its value
is overwritten in place, otherwise the pair is appended. -/
def insertRec {K V : Type} [DecidableEq K] : Rec K V → K → V → Rec K V
  | [], k, v => [(k, v)]
  | (k', v') :: rest, k, v =>
    if k' = k then (k, v) :: rest else (k', v') :: insertRec rest k v

/-- JS property access `obj[k]`: the value stored at key `k`, if any. -/
def recLookup {K V : Type} [DecidableEq K] : Rec K V → K → Option V
  | [], _ => none
  | (k', v') :: rest, k => if k' = k then some v' else recLookup rest k

/-- The key/value loop of `deserialMapFn`: `n` times reads a key then a
value and assigns `obj[k] = v` on the accumulator object. -/
def mapDeserial {K V : Type} [DecidableEq K] (deserialKey : List Nat → DRes K)
    (deserialValue : List Nat → DRes V) :
    Nat → Rec K V → List Nat → DRes (Rec K V)
  | 0, obj => dpure obj
  | n + 1, obj =>
    dbind deserialKey (fun k =>
      dbind deserialValue (fun v =>
        mapDeserial deserialKey deserialValue n (insertRec obj k v)))

/-- `deserialMapFn`: reads a `u32` length, then that many key/value pairs,
assigning each into an initially empty object. -/
def deserialMapFn {K V : Type} [DecidableEq K] (deserialKey : List Nat → DRes K)
    (deserialValue : List Nat → DRes V) : List Nat → DRes (Rec K V) :=
  dbind deserialUint32 (fun len => mapDeserial deserialKey deserialValue len [])

/-- `deserialOptionFn`: reads one tag byte; `OptionTag.None = 0` yields
`none`, `OptionTag.Some = 1` runs the inner decoder, anything else throws
`unsupported option tag`. -/
def deserialOptionFn {T : Type} (deserial : List Nat → DRes T) :
    List Nat → DRes (Option T) :=
  dbind deserialUint8 (fun tag =>
    if tag = 0 then dpure none
    else if tag = 1 then dbind deserial (fun v => dpure (some v))
    else derror (.unsupportedOptionTag tag))

mutual

/-- The `Type` tagged union of the source, mirroring its eight branch
shapes.  `leaf` covers the seventeen payload-free scalar variants
(`{ typeTag: tag }`), `listSet` the `List`/`Set` branch, and `strLike`
the `String`/`ContractName`/`ReceiveName` branch; in each case the
constructor stores the raw tag byte exactly as the source stores
`typeTag`.  `sizeLength` fields store the raw decoded byte, as the
source's runtime does. -/
inductive SchemaType where
  | leaf (typeTag : Nat) : SchemaType
  | pair (ofLeft ofRight : SchemaType) : SchemaType
  | listSet (typeTag : Nat) (sizeLength : Nat) (of : SchemaType) : SchemaType
  | map (sizeLength : Nat) (ofKeys ofValues : SchemaType) : SchemaType
  | array (size : Nat) (of : SchemaType) : SchemaType
  | struct (fields : Fields) : SchemaType
  | enum (variants : List (String × Fields)) : SchemaType
  | strLike (typeTag : Nat) (sizeLength : Nat) : SchemaType

/-- The `Fields` tagged union of the source: named fields, unnamed
(positional) fields, or no fields. -/
inductive Fields where
  | named (contents : List (String × SchemaType)) : Fields
  | unnamed (contents : List SchemaType) : Fields
  | none : Fields

end

/-- The tag dispatch of `deserialType` (the `switch` statement), generic
in the decoders used for the recursive `Type` and `Fields` positions.
Leaf tags are `0`–`14` (`Unit` … `Duration`) together with `23`/`24`
(`U128`/`I128`); `15` is `Pair`, `16`/`17` are `List`/`Set`, `18` is
`Map`, `19` is `Array`, `20` is `Struct`, `21` is `Enum`, and
`22`/`25`/`26` are `String`/`ContractName`/`ReceiveName`.  Every other
tag throws `unsupported type tag`. -/
def typeDispatch (dT : List Nat → DRes SchemaType)
    (dF : List Nat → DRes Fields) (tag : Nat) : List Nat → DRes SchemaType :=
  if tag ≤ 14 ∨ tag = 23 ∨ tag = 24 then dpure (.leaf tag)
  else if tag = 15 then
    dbind dT (fun l => dbind dT (fun r => dpure (.pair l r)))
  else if tag = 16 ∨ tag = 17 then
    dbind deserialUint8 (fun sl => dbind dT (fun t => dpure (.listSet tag sl t)))
  else if tag = 18 then
    dbind deserialUint8 (fun sl =>
      dbind dT (fun k => dbind dT (fun v => dpure (.map sl k v))))
  else if tag = 19 then
    dbind deserialUint32 (fun sz => dbind dT (fun t => dpure (.array sz t)))
  else if tag = 20 then dbind dF (fun f => dpure (.struct f))
  else if tag = 21 then
    dbind (deserialArrayFn (deserialTupleFn deserialString dF))
      (fun vs => dpure (.enum vs))
  else if tag = 22 ∨ tag = 25 ∨ tag = 26 then
    dbind deserialUint8 (fun sl => dpure (.strLike tag sl))
  else derror (.unsupportedTypeTag tag)

/-- The tag dispatch of `deserialFields`: `0` is `Named`, `1` is
`Unnamed`, `2` is `None`, anything else throws `unsupported fields tag`. -/
def fieldsDispatch (dT : List Nat → DRes SchemaType) (tag : Nat) :
    List Nat → DRes Fields :=
  if tag = 0 then
    dbind (deserialArrayFn (deserialTupleFn deserialString dT))
      (fun cs => dpure (.named cs))
  else if tag = 1 then dbind (deserialArrayFn dT) (fun cs => dpure (.unnamed cs))
  else if tag = 2 then dpure .none
  else derror (.unsupportedFieldsTag tag)

mutual

/-- Fuel-indexed approximation of `deserialType`: reads one tag byte and
dispatches.  The fuel bounds the recursion depth; it is proved that any
fuel exceeding the input length yields the same, fuel-exhaustion-free
result. -/
def deserialTypeF : Nat → List Nat → DRes SchemaType
  | 0 => derror .fuelExhausted
  | fuel + 1 =>
    dbind deserialUint8 (typeDispatch (deserialTypeF fuel) (deserialFieldsF fuel))

/-- Fuel-indexed approximation of `deserialFields`: reads one tag byte
and dispatches. -/
def deserialFieldsF : Nat → List Nat → DRes Fields
  | 0 => derror .fuelExhausted
  | fuel + 1 => dbind deserialUint8 (fieldsDispatch (deserialTypeF fuel))

end

/-- `deserialType`: the recursive `Type` decoder, run with sufficient
fuel (one more than the number of available bytes; each recursive call
strictly consumes input, so this fuel is never exhausted). -/
def deserialType : List Nat → DRes SchemaType := fun s =>
  deserialTypeF (s.length + 1) s

/-- `deserialFields`: the `Fields` decoder, run with sufficient fuel. -/
def deserialFields : List Nat → DRes Fields := fun s =>
  deserialFieldsF (s.length + 1) s

/-- `Contract`: optional state schema, optional init-parameter schema,
and the receive-function parameter schemas keyed by function name. -/
structure Contract where
  state : Option SchemaType
  init : Option SchemaType
  receive : Rec String SchemaType

/-- `deserialContract`: decodes the three fields in the fixed source
order `state`, `init`, `receive`. -/
def deserialContract : List Nat → DRes Contract :=
  dbind (deserialOptionFn deserialType) (fun st =>
    dbind (deserialOptionFn deserialType) (fun ini =>
      dbind (deserialMapFn deserialString deserialType) (fun recv =>
        dpure ⟨st, ini, recv⟩)))

/-- `Module`: map of contract names to contract schemas. -/
abbrev Module := Rec String Contract

/-- `deserialModule`: a map from strings to contracts. -/
def deserialModule : List Nat → DRes Module :=
  deserialMapFn deserialString deserialContract

/-! ## The chunked Byte Reader

The spec's Byte Reader (§4.1) pulls bytes from a source that delivers
data in arbitrarily sized chunks, accumulating bytes across deliveries
until an exact request can be satisfied.  We model the source as a list
of chunks (the successive deliveries, in order) and prove that reading
through it is equivalent to reading from the concatenation of all
deliveries. -/

/-- Modelled from the spec: `read_exact(n)` over a chunked source.  If the
front delivery holds at least `n` bytes they are taken from it; otherwise
the whole delivery is accumulated and the remainder of the request is
satisfied from the following deliveries.  When the source runs out of
deliveries before `n` bytes were gathered, the read fails with the
end-of-input condition, consuming nothing. -/
def readExactChunks : Nat → List (List Nat) → Except Err (List Nat) × List (List Nat)
  | 0, cs => (.ok [], cs)
  | _ + 1, [] => (.error .endOfInput, [])
  | n + 1, c :: cs =>
    if n + 1 ≤ c.length then (.ok (c.take (n + 1)), c.drop (n + 1) :: cs)
    else
      match readExactChunks (n + 1 - c.length) cs with
      | (.ok bs, cs') => (.ok (c ++ bs), cs')
      | (.error e, _) => (.error e, c :: cs)

/-- `deserialUint8` over a chunked source. -/
def deserialUint8C (cs : List (List Nat)) : Except Err Nat × List (List Nat) :=
  match readExactChunks 1 cs with
  | (.ok bs, cs') => (.ok (bs.headD 0), cs')
  | (.error e, cs') => (.error e, cs')

/-- `deserialUint32` over a chunked source. -/
def deserialUint32C (cs : List (List Nat)) : Except Err Nat × List (List Nat) :=
  match readExactChunks 4 cs with
  | (.ok bs, cs') => (.ok (leU32 bs), cs')
  | (.error e, cs') => (.error e, cs')

/-- Reading `n` bytes through the chunk-accumulating reader returns the
same bytes (and leaves the same bytes unread) as an exact read over the
concatenation of all deliveries. -/
theorem readExactChunks_flatten : ∀ (cs : List (List Nat)) (n : Nat),
    (readExactChunks n cs).1 = (readExact n cs.flatten).1
    ∧ (readExactChunks n cs).2.flatten = (readExact n cs.flatten).2 := by
  intro cs
  induction cs with
  | nil =>
    intro n
    cases n with
    | zero => simp [readExactChunks, readExact]
    | succ m => simp [readExactChunks, readExact]
  | cons c cs ih =>
    intro n
    cases n with
    | zero => simp [readExactChunks, readExact]
    | succ m =>
      by_cases hc : m + 1 ≤ c.length
      · have hflat : m + 1 ≤ (c ++ cs.flatten).length := by
          simp [List.length_append]; omega
        simp only [readExactChunks, if_pos hc, List.flatten_cons, readExact,
          if_pos hflat]
        constructor
        · rw [List.take_append_of_le_length hc]
        · simp [List.drop_append_of_le_length hc]
      · have hlen : c.length ≤ m + 1 := by omega
        obtain ⟨ih1, ih2⟩ := ih (m + 1 - c.length)
        simp only [readExactChunks, if_neg hc, List.flatten_cons]
        by_cases hrest : m + 1 - c.length ≤ cs.flatten.length
        · have hflat : m + 1 ≤ (c ++ cs.flatten).length := by
            simp only [List.length_append]; omega
          simp only [readExact, if_pos hrest] at ih1 ih2
          simp only [readExact, if_pos hflat]
          cases hr : readExactChunks (m + 1 - c.length) cs with
          | mk v cs' =>
            rw [hr] at ih1 ih2
            cases v with
            | ok bs =>
              simp only at ih1 ih2 ⊢
              constructor
              · rw [List.take_append_eq_append_take, List.take_of_length_le hlen]
                simp only [Except.ok.injEq] at ih1 ⊢
                rw [ih1]
              · rw [List.drop_append_eq_append_drop,
                  List.drop_of_length_le hlen, List.nil_append, ih2]
            | error e => simp at ih1
        · have hflat : ¬ m + 1 ≤ (c ++ cs.flatten).length := by
            simp only [List.length_append]; omega
          simp only [readExact, if_neg hrest] at ih1 ih2
          simp only [readExact, if_neg hflat]
          cases hr : readExactChunks (m + 1 - c.length) cs with
          | mk v cs' =>
            rw [hr] at ih1 ih2
            cases v with
            | ok bs => simp at ih1
            | error e =>
              simp only at ih1 ⊢
              simp only [Except.error.injEq] at ih1
              rw [ih1]
              simp [List.flatten_cons]

/-! ## State monotonicity

Every decoder only ever consumes bytes: the remaining byte list after a
call is a suffix of (in particular, no longer than) the input. -/

/-- A decoder never leaves more bytes than it was given. -/
def Mono {α : Type} (d : List Nat → DRes α) : Prop :=
  ∀ s, (d s).2.length ≤ s.length

theorem dpure_mono {α : Type} (a : α) : Mono (dpure a) := fun _ => le_refl _

theorem derror_mono {α : Type} (e : Err) : Mono (derror e (α := α)) :=
  fun _ => le_refl _

theorem dbind_mono {α β : Type} {x : List Nat → DRes α}
    {f : α → List Nat → DRes β} (hx : Mono x) (hf : ∀ a, Mono (f a)) :
    Mono (dbind x f) := by
  intro s
  unfold dbind
  cases hxs : x s with
  | mk v s' =>
    have hs' : s'.length ≤ s.length := by
      have := hx s; rw [hxs] at this; exact this
    cases v with
    | ok a => exact le_trans (hf a s') hs'
    | error e => exact hs'

theorem readExact_mono (n : Nat) : Mono (readExact n) := by
  intro s
  unfold readExact
  by_cases h : n ≤ s.length
  · simp [if_pos h]
  · simp [if_neg h]

theorem deserialUint8_mono : Mono deserialUint8 :=
  dbind_mono (readExact_mono 1) (fun _ => dpure_mono _)

theorem deserialUint32_mono : Mono deserialUint32 :=
  dbind_mono (readExact_mono 4) (fun _ => dpure_mono _)

theorem repDeserial_mono {T : Type} {d : List Nat → DRes T} (hd : Mono d) :
    ∀ n, Mono (repDeserial d n) := by
  intro n
  induction n with
  | zero => exact dpure_mono _
  | succ n ih =>
    exact dbind_mono hd (fun _ => dbind_mono ih (fun _ => dpure_mono _))

theorem deserialArrayFn_mono {T : Type} {d : List Nat → DRes T} (hd : Mono d) :
    Mono (deserialArrayFn d) :=
  dbind_mono deserialUint32_mono (fun len => repDeserial_mono hd len)

theorem deserialTupleFn_mono {L R : Type} {dl : List Nat → DRes L}
    {dr : List Nat → DRes R} (hl : Mono dl) (hr : Mono dr) :
    Mono (deserialTupleFn dl dr) :=
  dbind_mono hl (fun _ => dbind_mono hr (fun _ => dpure_mono _))

theorem deserialString_mono : Mono deserialString :=
  dbind_mono (deserialArrayFn_mono deserialUint8_mono) (fun _ => dpure_mono _)

theorem mapDeserial_mono {K V : Type} [DecidableEq K]
    {dk : List Nat → DRes K} {dv : List Nat → DRes V}
    (hk : Mono dk) (hv : Mono dv) :
    ∀ n obj, Mono (mapDeserial dk dv n obj) := by
  intro n
  induction n with
  | zero => intro obj; exact dpure_mono _
  | succ n ih =>
    intro obj
    exact dbind_mono hk (fun k => dbind_mono hv (fun v => ih _))

theorem deserialMapFn_mono {K V : Type} [DecidableEq K]
    {dk : List Nat → DRes K} {dv : List Nat → DRes V}
    (hk : Mono dk) (hv : Mono dv) : Mono (deserialMapFn dk dv) :=
  dbind_mono deserialUint32_mono (fun len => mapDeserial_mono hk hv len [])

theorem deserialOptionFn_mono {T : Type} {d : List Nat → DRes T}
    (hd : Mono d) : Mono (deserialOptionFn d) := by
  apply dbind_mono deserialUint8_mono
  intro tag
  by_cases h0 : tag = 0
  · simp only [if_pos h0]; exact dpure_mono _
  · simp only [if_neg h0]
    by_cases h1 : tag = 1
    · simp only [if_pos h1]
      exact dbind_mono hd (fun _ => dpure_mono _)
    · simp only [if_neg h1]; exact derror_mono _

theorem typeDispatch_mono {dT : List Nat → DRes SchemaType}
    {dF : List Nat → DRes Fields} (hT : Mono dT) (hF : Mono dF) :
    ∀ tag, Mono (typeDispatch dT dF tag) := by
  intro tag
  unfold typeDispatch
  split
  · exact dpure_mono _
  split
  · exact dbind_mono hT (fun _ => dbind_mono hT (fun _ => dpure_mono _))
  split
  · exact dbind_mono deserialUint8_mono
      (fun _ => dbind_mono hT (fun _ => dpure_mono _))
  split
  · exact dbind_mono deserialUint8_mono (fun _ => dbind_mono hT
      (fun _ => dbind_mono hT (fun _ => dpure_mono _)))
  split
  · exact dbind_mono deserialUint32_mono
      (fun _ => dbind_mono hT (fun _ => dpure_mono _))
  split
  · exact dbind_mono hF (fun _ => dpure_mono _)
  split
  · exact dbind_mono
      (deserialArrayFn_mono (deserialTupleFn_mono deserialString_mono hF))
      (fun _ => dpure_mono _)
  split
  · exact dbind_mono deserialUint8_mono (fun _ => dpure_mono _)
  · exact derror_mono _

theorem fieldsDispatch_mono {dT : List Nat → DRes SchemaType} (hT : Mono dT) :
    ∀ tag, Mono (fieldsDispatch dT tag) := by
  intro tag
  unfold fieldsDispatch
  split
  · exact dbind_mono
      (deserialArrayFn_mono (deserialTupleFn_mono deserialString_mono hT))
      (fun _ => dpure_mono _)
  split
  · exact dbind_mono (deserialArrayFn_mono hT) (fun _ => dpure_mono _)
  split
  · exact dpure_mono _
  · exact derror_mono _

/-- Both fuel-indexed recursive decoders are state-monotone at every
fuel. -/
theorem deserialTypeF_fieldsF_mono :
    ∀ fuel, Mono (deserialTypeF fuel) ∧ Mono (deserialFieldsF fuel) := by
  intro fuel
  induction fuel with
  | zero => exact ⟨derror_mono _, derror_mono _⟩
  | succ fuel ih =>
    refine ⟨?_, ?_⟩
    · show Mono (dbind deserialUint8
        (typeDispatch (deserialTypeF fuel) (deserialFieldsF fuel)))
      exact dbind_mono deserialUint8_mono (typeDispatch_mono ih.1 ih.2)
    · show Mono (dbind deserialUint8 (fieldsDispatch (deserialTypeF fuel)))
      exact dbind_mono deserialUint8_mono (fieldsDispatch_mono ih.1)

theorem deserialType_mono : Mono deserialType := fun s =>
  (deserialTypeF_fieldsF_mono (s.length + 1)).1 s

/-! ## Fuel irrelevance

On inputs of length below the fuel, the fuel-indexed decoders agree with
each other and never report fuel exhaustion: the recursion always bottoms
out by consuming input.  `Good B d d'` says the two decoders agree, and
never report fuel exhaustion, on all states of length at most `B`. -/

/-- Bounded agreement of two decoders, with freedom from the
fuel-exhaustion marker. -/
def Good (B : Nat) {α : Type} (d d' : List Nat → DRes α) : Prop :=
  ∀ s, s.length ≤ B → d s = d' s ∧ (d s).1 ≠ .error .fuelExhausted

theorem dpure_good {B : Nat} {α : Type} (a : α) : Good B (dpure a) (dpure a) :=
  fun _ _ => ⟨rfl, by simp [dpure]⟩

theorem derror_good {B : Nat} {α : Type} {e : Err} (he : e ≠ .fuelExhausted) :
    Good B (derror e (α := α)) (derror e) :=
  fun _ _ => ⟨rfl, by simp [derror]; exact fun h => he h⟩

theorem dbind_good {B : Nat} {α β : Type} {x x' : List Nat → DRes α}
    {f f' : α → List Nat → DRes β} (hx : Good B x x') (hxm : Mono x)
    (hf : ∀ a, Good B (f a) (f' a)) : Good B (dbind x f) (dbind x' f') := by
  intro s hs
  obtain ⟨hxe, hxn⟩ := hx s hs
  unfold dbind
  rw [← hxe]
  cases hxs : x s with
  | mk v s' =>
    have hs' : s'.length ≤ B := by
      have := hxm s; rw [hxs] at this; exact le_trans this hs
    cases v with
    | ok a =>
      obtain ⟨hfe, hfn⟩ := hf a s' hs'
      exact ⟨hfe, hfn⟩
    | error e =>
      rw [hxs] at hxn
      refine ⟨rfl, ?_⟩
      simpa using hxn

theorem readExact_good {B n : Nat} : Good B (readExact n) (readExact n) := by
  intro s _
  refine ⟨rfl, ?_⟩
  unfold readExact
  by_cases h : n ≤ s.length
  · simp [if_pos h]
  · simp [if_neg h]

theorem deserialUint8_good {B : Nat} : Good B deserialUint8 deserialUint8 :=
  dbind_good readExact_good (readExact_mono 1) (fun _ => dpure_good _)

theorem deserialUint32_good {B : Nat} : Good B deserialUint32 deserialUint32 :=
  dbind_good readExact_good (readExact_mono 4) (fun _ => dpure_good _)

theorem repDeserial_good {B : Nat} {T : Type} {d d' : List Nat → DRes T}
    (hd : Good B d d') (hdm : Mono d) :
    ∀ n, Good B (repDeserial d n) (repDeserial d' n) := by
  intro n
  induction n with
  | zero => exact dpure_good _
  | succ n ih =>
    exact dbind_good hd hdm
      (fun a => dbind_good ih (repDeserial_mono hdm n) (fun as => dpure_good _))

theorem deserialArrayFn_good {B : Nat} {T : Type} {d d' : List Nat → DRes T}
    (hd : Good B d d') (hdm : Mono d) :
    Good B (deserialArrayFn d) (deserialArrayFn d') :=
  dbind_good deserialUint32_good deserialUint32_mono
    (fun len => repDeserial_good hd hdm len)

theorem deserialTupleFn_good {B : Nat} {L R : Type} {dl dl' : List Nat → DRes L}
    {dr dr' : List Nat → DRes R} (hl : Good B dl dl') (hlm : Mono dl)
    (hr : Good B dr dr') (hrm : Mono dr) :
    Good B (deserialTupleFn dl dr) (deserialTupleFn dl' dr') :=
  dbind_good hl hlm (fun _ => dbind_good hr hrm (fun _ => dpure_good _))

theorem deserialString_good {B : Nat} : Good B deserialString deserialString :=
  dbind_good (deserialArrayFn_good deserialUint8_good deserialUint8_mono)
    (deserialArrayFn_mono deserialUint8_mono) (fun _ => dpure_good _)

theorem typeDispatch_good {B : Nat} {dT dT' : List Nat → DRes SchemaType}
    {dF dF' : List Nat → DRes Fields} (hT : Good B dT dT') (hTm : Mono dT)
    (hF : Good B dF dF') (hFm : Mono dF) :
    ∀ tag, Good B (typeDispatch dT dF tag) (typeDispatch dT' dF' tag) := by
  intro tag
  unfold typeDispatch
  by_cases h1 : tag ≤ 14 ∨ tag = 23 ∨ tag = 24
  · simp only [if_pos h1]; exact dpure_good _
  simp only [if_neg h1]
  by_cases h2 : tag = 15
  · simp only [if_pos h2]
    exact dbind_good hT hTm (fun _ => dbind_good hT hTm (fun _ => dpure_good _))
  simp only [if_neg h2]
  by_cases h3 : tag = 16 ∨ tag = 17
  · simp only [if_pos h3]
    exact dbind_good deserialUint8_good deserialUint8_mono
      (fun sl => dbind_good hT hTm (fun t => dpure_good _))
  simp only [if_neg h3]
  by_cases h4 : tag = 18
  · simp only [if_pos h4]
    exact dbind_good deserialUint8_good deserialUint8_mono
      (fun sl => dbind_good hT hTm
        (fun k => dbind_good hT hTm (fun v => dpure_good _)))
  simp only [if_neg h4]
  by_cases h5 : tag = 19
  · simp only [if_pos h5]
    exact dbind_good deserialUint32_good deserialUint32_mono
      (fun sz => dbind_good hT hTm (fun t => dpure_good _))
  simp only [if_neg h5]
  by_cases h6 : tag = 20
  · simp only [if_pos h6]
    exact dbind_good hF hFm (fun f => dpure_good _)
  simp only [if_neg h6]
  by_cases h7 : tag = 21
  · simp only [if_pos h7]
    exact dbind_good
      (deserialArrayFn_good (deserialTupleFn_good deserialString_good
        deserialString_mono hF hFm)
        (deserialTupleFn_mono deserialString_mono hFm))
      (deserialArrayFn_mono (deserialTupleFn_mono deserialString_mono hFm))
      (fun vs => dpure_good _)
  simp only [if_neg h7]
  by_cases h8 : tag = 22 ∨ tag = 25 ∨ tag = 26
  · simp only [if_pos h8]
    exact dbind_good deserialUint8_good deserialUint8_mono
      (fun sl => dpure_good _)
  simp only [if_neg h8]
  exact derror_good (by simp)

theorem fieldsDispatch_good {B : Nat} {dT dT' : List Nat → DRes SchemaType}
    (hT : Good B dT dT') (hTm : Mono dT) :
    ∀ tag, Good B (fieldsDispatch dT tag) (fieldsDispatch dT' tag) := by
  intro tag
  unfold fieldsDispatch
  by_cases h1 : tag = 0
  · simp only [if_pos h1]
    exact dbind_good
      (deserialArrayFn_good (deserialTupleFn_good deserialString_good
        deserialString_mono hT hTm)
        (deserialTupleFn_mono deserialString_mono hTm))
      (deserialArrayFn_mono (deserialTupleFn_mono deserialString_mono hTm))
      (fun cs => dpure_good _)
  simp only [if_neg h1]
  by_cases h2 : tag = 1
  · simp only [if_pos h2]
    exact dbind_good (deserialArrayFn_good hT hTm) (deserialArrayFn_mono hTm)
      (fun cs => dpure_good _)
  simp only [if_neg h2]
  by_cases h3 : tag = 2
  · simp only [if_pos h3]; exact dpure_good _
  simp only [if_neg h3]
  exact derror_good (by simp)

/-- Reading one byte from a non-empty input succeeds with its head. -/
theorem deserialUint8_cons (b : Nat) (rest : List Nat) :
    deserialUint8 (b :: rest) = (.ok b, rest) := by
  simp [deserialUint8, dbind, dpure, readExact]

/-- `deserialType`'s recursive step on a non-empty input: read the tag,
then dispatch. -/
theorem deserialTypeF_cons (f b : Nat) (rest : List Nat) :
    deserialTypeF (f + 1) (b :: rest)
      = typeDispatch (deserialTypeF f) (deserialFieldsF f) b rest := by
  show dbind deserialUint8 _ (b :: rest) = _
  unfold dbind
  rw [deserialUint8_cons]

/-- `deserialFields`'s recursive step on a non-empty input. -/
theorem deserialFieldsF_cons (f b : Nat) (rest : List Nat) :
    deserialFieldsF (f + 1) (b :: rest)
      = fieldsDispatch (deserialTypeF f) b rest := by
  show dbind deserialUint8 _ (b :: rest) = _
  unfold dbind
  rw [deserialUint8_cons]

/-- On empty input both recursive decoders fail with end-of-input. -/
theorem deserialTypeF_nil (f : Nat) :
    deserialTypeF (f + 1) [] = (.error .endOfInput, []) := rfl

theorem deserialFieldsF_nil (f : Nat) :
    deserialFieldsF (f + 1) [] = (.error .endOfInput, []) := rfl

/-- The main fuel-irrelevance induction: on inputs of length at most `n`,
any two sufficient fuels give equal results, free of the fuel-exhaustion
marker. -/
theorem fuelIrrelAux : ∀ n (s : List Nat) (f g : Nat), s.length ≤ n →
    s.length < f → s.length < g →
    (deserialTypeF f s = deserialTypeF g s
      ∧ (deserialTypeF f s).1 ≠ .error .fuelExhausted)
    ∧ (deserialFieldsF f s = deserialFieldsF g s
      ∧ (deserialFieldsF f s).1 ≠ .error .fuelExhausted) := by
  intro n
  induction n with
  | zero =>
    intro s f g hn hf hg
    obtain rfl : s = [] := List.length_eq_zero.mp (Nat.le_zero.mp hn)
    obtain ⟨f', rfl⟩ : ∃ f', f = f' + 1 := ⟨f - 1, by omega⟩
    obtain ⟨g', rfl⟩ : ∃ g', g = g' + 1 := ⟨g - 1, by omega⟩
    rw [deserialTypeF_nil, deserialTypeF_nil, deserialFieldsF_nil,
      deserialFieldsF_nil]
    exact ⟨⟨rfl, by simp⟩, ⟨rfl, by simp⟩⟩
  | succ n ih =>
    intro s f g hn hf hg
    obtain ⟨f', rfl⟩ : ∃ f', f = f' + 1 := ⟨f - 1, by omega⟩
    obtain ⟨g', rfl⟩ : ∃ g', g = g' + 1 := ⟨g - 1, by omega⟩
    cases s with
    | nil =>
      rw [deserialTypeF_nil, deserialTypeF_nil, deserialFieldsF_nil,
        deserialFieldsF_nil]
      exact ⟨⟨rfl, by simp⟩, ⟨rfl, by simp⟩⟩
    | cons b rest =>
      have hrest : rest.length ≤ n := by
        simp only [List.length_cons] at hn; omega
      have hT : Good rest.length (deserialTypeF f') (deserialTypeF g') := by
        intro t ht
        exact (ih t f' g' (le_trans ht hrest)
          (by simp only [List.length_cons] at hf; omega)
          (by simp only [List.length_cons] at hg; omega)).1
      have hF : Good rest.length (deserialFieldsF f') (deserialFieldsF g') := by
        intro t ht
        exact (ih t f' g' (le_trans ht hrest)
          (by simp only [List.length_cons] at hf; omega)
          (by simp only [List.length_cons] at hg; omega)).2
      have hTm : Mono (deserialTypeF f') := (deserialTypeF_fieldsF_mono f').1
      have hFm : Mono (deserialFieldsF f') := (deserialTypeF_fieldsF_mono f').2
      constructor
      · rw [deserialTypeF_cons, deserialTypeF_cons]
        exact typeDispatch_good hT hTm hF hFm b rest le_rfl
      · rw [deserialFieldsF_cons, deserialFieldsF_cons]
        exact fieldsDispatch_good hT hTm b rest le_rfl

/-- Any fuel exceeding the input length computes `deserialType`. -/
theorem deserialTypeF_irrel (f : Nat) (s : List Nat) (h : s.length < f) :
    deserialTypeF f s = deserialType s :=
  (fuelIrrelAux s.length s f (s.length + 1) le_rfl h (by omega)).1.1

/-- With sufficient fuel, fuel exhaustion never occurs. -/
theorem deserialTypeF_noFuelErr (f : Nat) (s : List Nat) (h : s.length < f) :
    (deserialTypeF f s).1 ≠ .error .fuelExhausted :=
  (fuelIrrelAux s.length s f f le_rfl h h).1.2

/-- Any fuel exceeding the input length computes `deserialFields`. -/
theorem deserialFieldsF_irrel (f : Nat) (s : List Nat) (h : s.length < f) :
    deserialFieldsF f s = deserialFields s :=
  (fuelIrrelAux s.length s f (s.length + 1) le_rfl h (by omega)).2.1

/-- A successful `deserialType` strictly consumes input: at least the tag
byte. -/
theorem deserialType_consumes (s : List Nat) (v : SchemaType) (s' : List Nat)
    (h : deserialType s = (.ok v, s')) : s'.length < s.length := by
  cases s with
  | nil =>
    rw [show deserialType [] = deserialTypeF (0 + 1) [] from rfl,
      deserialTypeF_nil] at h
    exact absurd (congrArg Prod.fst h) (by simp)
  | cons b rest =>
    have hstep : deserialType (b :: rest)
        = typeDispatch (deserialTypeF (rest.length + 1))
            (deserialFieldsF (rest.length + 1)) b rest := by
      show deserialTypeF ((b :: rest).length + 1) (b :: rest) = _
      rw [show (b :: rest).length + 1 = (rest.length + 1) + 1 by simp,
        deserialTypeF_cons]
    rw [hstep] at h
    have hm : (typeDispatch (deserialTypeF (rest.length + 1))
        (deserialFieldsF (rest.length + 1)) b rest).2.length ≤ rest.length :=
      typeDispatch_mono (deserialTypeF_fieldsF_mono (rest.length + 1)).1
        (deserialTypeF_fieldsF_mono (rest.length + 1)).2 b rest
    rw [h] at hm
    simp only [List.length_cons]
    simp only at hm
    omega

/-! ## Supporting lemmas for sequences and mappings -/

/-- A successful element loop yields exactly as many elements as it was
asked to decode. -/
theorem repDeserial_length {T : Type} {d : List Nat → DRes T} :
    ∀ (n : Nat) (t : List Nat) (arr : List T) (t' : List Nat),
      repDeserial d n t = (.ok arr, t') → arr.length = n := by
  intro n
  induction n with
  | zero =>
    intro t arr t' h
    simp only [repDeserial, dpure, Prod.mk.injEq, Except.ok.injEq] at h
    rw [← h.1]
    rfl
  | succ n ih =>
    intro t arr t' h
    simp only [repDeserial] at h
    cases hd : d t with
    | mk v t1 =>
      cases v with
      | error e => rw [dbind_error hd] at h; simp at h
      | ok a =>
        rw [dbind_ok hd] at h
        cases hrep : repDeserial d n t1 with
        | mk w t2 =>
          cases w with
          | error e => rw [dbind_error hrep] at h; simp at h
          | ok as =>
            rw [dbind_ok hrep] at h
            simp only [dpure, Prod.mk.injEq, Except.ok.injEq] at h
            rw [← h.1]
            simp [ih t1 as t2 hrep]

/-- Looking a key up after a JS property assignment: the assigned key
maps to the new value, all other keys are untouched. -/
theorem recLookup_insertRec {K V : Type} [DecidableEq K] :
    ∀ (r : Rec K V) (a : K) (b : V) (k : K),
      recLookup (insertRec r a b) k = if a = k then some b else recLookup r k := by
  intro r a b
  induction r with
  | nil =>
    intro k
    by_cases h : a = k
    · simp [insertRec, recLookup, h]
    · simp [insertRec, recLookup, h]
  | cons p rest ih =>
    intro k
    obtain ⟨k', v'⟩ := p
    simp only [insertRec]
    by_cases hka : k' = a
    · simp only [if_pos hka, recLookup]
      by_cases h : a = k
      · simp [h]
      · have hk' : ¬ k' = k := by rw [hka]; exact h
        simp [h, hk', recLookup]
    · simp only [if_neg hka, recLookup]
      by_cases h : k' = k
      · have ha : ¬ a = k := fun hh => hka (h.trans hh.symm)
        simp [h, ha]
      · simp [h, ih k]

/-- First-match lookup distributes over append. -/
theorem recLookup_append {K V : Type} [DecidableEq K] :
    ∀ (xs ys : Rec K V) (k : K),
      recLookup (xs ++ ys) k
        = match recLookup xs k with
          | some v => some v
          | none => recLookup ys k := by
  intro xs ys k
  induction xs with
  | nil => simp [recLookup]
  | cons p rest ih =>
    obtain ⟨k', v'⟩ := p
    by_cases h : k' = k
    · simp [recLookup, h]
    · simp only [List.cons_append, recLookup, if_neg h]
      exact ih

/-- The value paired with the last occurrence of `k` in the pair list:
first-match lookup over the reversed list. -/
def lastLookup {K V : Type} [DecidableEq K] (ps : List (K × V)) (k : K) :
    Option V :=
  recLookup ps.reverse k

theorem lastLookup_cons {K V : Type} [DecidableEq K] (p : K × V)
    (ps : List (K × V)) (k : K) :
    lastLookup (p :: ps) k
      = match lastLookup ps k with
        | some v => some v
        | none => if p.1 = k then some p.2 else none := by
  unfold lastLookup
  rw [List.reverse_cons, recLookup_append]
  cases recLookup ps.reverse k with
  | some v => rfl
  | none => simp [recLookup]

/-- The object built by successively assigning each pair of `ps` into an
initially empty object, in order (the body of `deserialMapFn`'s loop). -/
def buildRecord {K V : Type} [DecidableEq K] (ps : List (K × V)) : Rec K V :=
  ps.foldl (fun r p => insertRec r p.1 p.2) []

/-- Folding JS assignments over a pair list: each key ends up mapped to
the value of its last occurrence, earlier assignments (and the initial
object) only visible for keys not assigned later. -/
theorem foldl_insertRec_lookup {K V : Type} [DecidableEq K] :
    ∀ (ps : List (K × V)) (acc : Rec K V) (k : K),
      recLookup (ps.foldl (fun r p => insertRec r p.1 p.2) acc) k
        = match lastLookup ps k with
          | some v => some v
          | none => recLookup acc k := by
  intro ps
  induction ps with
  | nil =>
    intro acc k
    simp [lastLookup, recLookup, List.foldl_nil]
  | cons p rest ih =>
    intro acc k
    simp only [List.foldl_cons]
    rw [ih, lastLookup_cons]
    cases hrest : lastLookup rest k with
    | some v => rfl
    | none =>
      rw [recLookup_insertRec]
      by_cases h : p.1 = k
      · simp [h]
      · simp [h]

/-- Inverting a successful pair decode: the left decoder succeeded on the
input and the right decoder on the left decoder's leftover. -/
theorem deserialTupleFn_ok_inv {L R : Type} {dl : List Nat → DRes L}
    {dr : List Nat → DRes R} {t t' : List Nat} {pl : L} {pr : R}
    (h : deserialTupleFn dl dr t = (.ok (pl, pr), t')) :
    ∃ t1, dl t = (.ok pl, t1) ∧ dr t1 = (.ok pr, t') := by
  unfold deserialTupleFn at h
  cases hl : dl t with
  | mk v1 t1 =>
    cases v1 with
    | error e => rw [dbind_error hl] at h; simp at h
    | ok l =>
      rw [dbind_ok hl] at h
      cases hr : dr t1 with
      | mk v2 t2 =>
        cases v2 with
        | error e => rw [dbind_error hr] at h; simp at h
        | ok r =>
          rw [dbind_ok hr] at h
          simp only [dpure, Prod.mk.injEq, Except.ok.injEq] at h
          obtain ⟨⟨hpl, hpr⟩, ht⟩ := h
          subst hpl; subst hpr; subst ht
          exact ⟨t1, rfl, hr⟩


/-- A successful run of `deserialMapFn`'s loop folds the same pairs that
`repDeserial` over the pair decoder would produce, assigning them in
order. -/
theorem mapDeserial_eq_foldl {K V : Type} [DecidableEq K]
    {dk : List Nat → DRes K} {dv : List Nat → DRes V} :
    ∀ (n : Nat) (t : List Nat) (acc : Rec K V) (ps : List (K × V))
      (t' : List Nat),
      repDeserial (deserialTupleFn dk dv) n t = (.ok ps, t') →
      mapDeserial dk dv n acc t
        = (.ok (ps.foldl (fun r p => insertRec r p.1 p.2) acc), t') := by
  intro n
  induction n with
  | zero =>
    intro t acc ps t' h
    simp only [repDeserial, dpure, Prod.mk.injEq, Except.ok.injEq] at h
    simp [mapDeserial, dpure, ← h.1, h.2]
  | succ n ih =>
    intro t acc ps t' h
    simp only [repDeserial] at h
    cases hkv : deserialTupleFn dk dv t with
    | mk w t2 =>
      cases w with
      | error e => rw [dbind_error hkv] at h; simp at h
      | ok kv =>
        rw [dbind_ok hkv] at h
        cases hrep : repDeserial (deserialTupleFn dk dv) n t2 with
        | mk w2 t3 =>
          cases w2 with
          | error e => rw [dbind_error hrep] at h; simp at h
          | ok ps' =>
            rw [dbind_ok hrep] at h
            simp only [dpure, Prod.mk.injEq, Except.ok.injEq] at h
            obtain ⟨hps, ht3⟩ := h
            obtain ⟨k, v⟩ := kv
            obtain ⟨t1, hk, hv⟩ := deserialTupleFn_ok_inv hkv
            show dbind dk _ t = _
            rw [dbind_ok hk]
            show dbind dv _ t1 = _
            rw [dbind_ok hv]
            rw [← hps, ← ht3]
            simp only [List.foldl_cons]
            exact ih t2 (insertRec acc k v) ps' t3 hrep

/-! ## Unfolding `deserialType` one tag at a time -/

/-- One step of `deserialType` on a non-empty input: the head byte is the
tag, the dispatch continues on the tail with the fuel the top-level call
allotted. -/
theorem deserialType_cons (b : Nat) (s : List Nat) :
    deserialType (b :: s)
      = typeDispatch (deserialTypeF (s.length + 1)) (deserialFieldsF (s.length + 1))
          b s := by
  show deserialTypeF ((b :: s).length + 1) (b :: s) = _
  rw [show (b :: s).length + 1 = (s.length + 1) + 1 by simp, deserialTypeF_cons]

/-- A leaf tag (`0`–`14`, `23`, `24`) decodes to its payload-free variant,
consuming only the tag byte. -/
theorem deserialType_leaf (t : Nat) (s : List Nat)
    (ht : t ≤ 14 ∨ t = 23 ∨ t = 24) :
    deserialType (t :: s) = (.ok (.leaf t), s) := by
  rw [deserialType_cons]
  unfold typeDispatch
  rw [if_pos ht]
  rfl

/-- C3 (counterexample): the enumerated `TypeTag` range extends to 26
(`ContractName = 25`, `ReceiveName = 26`), so a first byte of 25 lies
outside the claimed 0–24 range yet `deserialType` succeeds on it rather
than failing with an unsupported-tag error. -/
theorem deserialType_tag25_succeeds :
    24 < 25 ∧ deserialType [25, 2] = (.ok (.strLike 25 2), []) :=
  ⟨by omega, rfl⟩

/-- C3 (amended): for every first byte outside the enumerated range 0–26,
`deserialType` fails with the unsupported-type-tag error carrying that
byte, having consumed exactly the one tag byte (the remaining bytes are
exactly the input's tail), and returns no value. -/
theorem deserialType_unsupported_tag (b : Nat) (s : List Nat) (hb : 26 < b) :
    deserialType (b :: s) = (.error (.unsupportedTypeTag b), s) := by
  rw [deserialType_cons]
  unfold typeDispatch
  split_ifs <;> first
  | omega
  | rfl

/-- Witness for the amended C3 theorem at tag 27. -/
theorem deserialType_unsupported_tag_witness :
    26 < 27 ∧ deserialType [27, 9] = (.error (.unsupportedTypeTag 27), [9]) :=
  ⟨by omega, deserialType_unsupported_tag 27 [9] (by omega)⟩

/-- C8: for each of the tags `String = 22`, `ContractName = 25` and
`ReceiveName = 26`, `deserialType` reads exactly one following byte as
the `sizeLength` and succeeds for every value of that byte — no runtime
check compares it against the 4-byte width the data model pins these
variants to. -/
theorem deserialType_strLike_any_sizeLength (b : Nat) (s : List Nat) :
    deserialType (22 :: b :: s) = (.ok (.strLike 22 b), s)
    ∧ deserialType (25 :: b :: s) = (.ok (.strLike 25 b), s)
    ∧ deserialType (26 :: b :: s) = (.ok (.strLike 26 b), s) := by
  refine ⟨?_, ?_, ?_⟩
  all_goals
    rw [deserialType_cons]
    unfold typeDispatch
    split_ifs <;> first
    | omega
    | (rw [dbind_ok (deserialUint8_cons b s)]; rfl)

/-- C10: for the tags `List = 16`, `Set = 17` and `Map = 18`,
`deserialType` reads the following byte as the `sizeLength` and stores it
unchecked: decoding succeeds for every byte value (including 4–255,
outside the enumerated `SizeLength` range 0–3) and the resulting type
carries that raw byte. -/
theorem deserialType_collection_raw_sizeLength (b : Nat) (s : List Nat) :
    deserialType (16 :: b :: 0 :: s) = (.ok (.listSet 16 b (.leaf 0)), s)
    ∧ deserialType (17 :: b :: 0 :: s) = (.ok (.listSet 17 b (.leaf 0)), s)
    ∧ deserialType (18 :: b :: 0 :: 1 :: s)
        = (.ok (.map b (.leaf 0) (.leaf 1)), s) := by
  refine ⟨?_, ?_, ?_⟩
  · have hleaf : deserialTypeF ((b :: 0 :: s).length + 1) (0 :: s)
        = (.ok (.leaf 0), s) := by
      rw [deserialTypeF_irrel _ _ (by simp), deserialType_leaf 0 s (by omega)]
    rw [deserialType_cons]
    unfold typeDispatch
    split_ifs <;> first
    | omega
    | (rw [dbind_ok (deserialUint8_cons b (0 :: s)), dbind_ok hleaf]; rfl)
  · have hleaf : deserialTypeF ((b :: 0 :: s).length + 1) (0 :: s)
        = (.ok (.leaf 0), s) := by
      rw [deserialTypeF_irrel _ _ (by simp), deserialType_leaf 0 s (by omega)]
    rw [deserialType_cons]
    unfold typeDispatch
    split_ifs <;> first
    | omega
    | (rw [dbind_ok (deserialUint8_cons b (0 :: s)), dbind_ok hleaf]; rfl)
  · have hk : deserialTypeF ((b :: 0 :: 1 :: s).length + 1) (0 :: 1 :: s)
        = (.ok (.leaf 0), 1 :: s) := by
      rw [deserialTypeF_irrel _ _ (by simp), deserialType_leaf 0 (1 :: s) (by omega)]
    have hv : deserialTypeF ((b :: 0 :: 1 :: s).length + 1) (1 :: s)
        = (.ok (.leaf 1), s) := by
      rw [deserialTypeF_irrel _ _ (by simp), deserialType_leaf 1 s (by omega)]
    rw [deserialType_cons]
    unfold typeDispatch
    split_ifs <;> first
    | omega
    | (rw [dbind_ok (deserialUint8_cons b (0 :: 1 :: s)), dbind_ok hk,
        dbind_ok hv]; rfl)

/-- C9: `deserialType` terminates on every finite input.  Any fuel
exceeding the input length yields the canonical decode result and never
the fuel-exhaustion marker — the recursion always bottoms out — because
each recursive invocation first consumes the tag byte from a strictly
advancing input, as the last conjunct records: a successful decode
strictly consumes input.  The decoded tree is finite and acyclic by
construction, `SchemaType` being an inductive type. -/
theorem deserialType_terminates (fuel : Nat) (s : List Nat)
    (h : s.length < fuel) :
    (deserialTypeF fuel s = deserialType s
      ∧ (deserialTypeF fuel s).1 ≠ .error .fuelExhausted)
    ∧ (∀ v s', deserialType s = (.ok v, s') → s'.length < s.length) :=
  ⟨⟨deserialTypeF_irrel fuel s h, deserialTypeF_noFuelErr fuel s h⟩,
    fun v s' hv => deserialType_consumes s v s' hv⟩

/-- Witness for C9 on the one-byte input `[2]` (tag `U8`) with fuel 5. -/
theorem deserialType_terminates_witness :
    ([2] : List Nat).length < 5
    ∧ ((deserialTypeF 5 [2] = deserialType [2]
        ∧ (deserialTypeF 5 [2]).1 ≠ .error .fuelExhausted)
      ∧ (∀ v s', deserialType [2] = (.ok v, s') → s'.length < ([2] : List Nat).length)) :=
  ⟨by simp, deserialType_terminates 5 [2] (by simp)⟩

/-- C6: `deserialOptionFn` reads one tag byte; on 0 it returns the absent
value without reading further, on 1 it immediately runs the inner decoder
and wraps its result in `some`, and on any other byte it fails with the
unsupported-option-tag error carrying that byte. -/
theorem deserialOptionFn_tag_dispatch (T : Type) (d : List Nat → DRes T)
    (s : List Nat) (b : Nat) :
    deserialOptionFn d (0 :: s) = (.ok Option.none, s)
    ∧ deserialOptionFn d (1 :: s) = dbind d (fun v => dpure (some v)) s
    ∧ (2 ≤ b → deserialOptionFn d (b :: s)
        = (.error (.unsupportedOptionTag b), s)) := by
  refine ⟨?_, ?_, fun hb => ?_⟩
  · show dbind deserialUint8 _ (0 :: s) = _
    rw [dbind_ok (deserialUint8_cons 0 s)]
    rfl
  · show dbind deserialUint8 _ (1 :: s) = _
    rw [dbind_ok (deserialUint8_cons 1 s)]
    rfl
  · show dbind deserialUint8 _ (b :: s) = _
    rw [dbind_ok (deserialUint8_cons b s)]
    split_ifs <;> first
    | omega
    | rfl

/-- Witness for C6's unsupported-tag case at tag byte 2. -/
theorem deserialOptionFn_tag_dispatch_witness :
    2 ≤ 2 ∧ deserialOptionFn deserialUint8 [2, 7]
      = (.error (.unsupportedOptionTag 2), [7]) :=
  ⟨by omega,
    (deserialOptionFn_tag_dispatch Nat deserialUint8 [7] 2).2.2 (by omega)⟩

/-- C4: once `deserialArrayFn` has read its four-byte little-endian `u32`
length `L`, it runs the element decoder exactly `L` times in order (the
loop equation of the last conjunct), a successful run yields a sequence
of length exactly `L`, and `L = 0` yields the empty sequence immediately
with no possibility of failure after the length itself. -/
theorem deserialArrayFn_reads_length_then_elements (T : Type)
    (d : List Nat → DRes T) (s s₁ : List Nat) (L : Nat)
    (h : deserialUint32 s = (.ok L, s₁)) :
    deserialArrayFn d s = repDeserial d L s₁
    ∧ (∀ arr s₂, repDeserial d L s₁ = (.ok arr, s₂) → arr.length = L)
    ∧ (L = 0 → deserialArrayFn d s = (.ok [], s₁))
    ∧ (∀ (n : Nat) (t : List Nat),
        repDeserial d (n + 1) t
          = dbind d (fun a =>
              dbind (repDeserial d n) (fun as => dpure (a :: as))) t) := by
  have harr : deserialArrayFn d s = repDeserial d L s₁ := dbind_ok h
  refine ⟨harr, ?_, ?_, fun n t => rfl⟩
  · intro arr s₂ hrep
    exact repDeserial_length L s₁ arr s₂ hrep
  · intro hL
    subst hL
    rw [harr]
    rfl

/-- Witness for C4 on the zero-length prefix `[0,0,0,0]`. -/
theorem deserialArrayFn_reads_length_witness :
    deserialUint32 [0, 0, 0, 0] = (.ok 0, [])
    ∧ (deserialArrayFn deserialUint8 [0, 0, 0, 0]
        = repDeserial deserialUint8 0 []
      ∧ (∀ arr s₂, repDeserial deserialUint8 0 [] = (.ok arr, s₂)
          → arr.length = 0)
      ∧ (0 = 0 → deserialArrayFn deserialUint8 [0, 0, 0, 0] = (.ok [], []))
      ∧ (∀ (n : Nat) (t : List Nat),
          repDeserial deserialUint8 (n + 1) t
            = dbind deserialUint8 (fun a =>
                dbind (repDeserial deserialUint8 n)
                  (fun as => dpure (a :: as))) t)) :=
  ⟨rfl, deserialArrayFn_reads_length_then_elements Nat deserialUint8
    [0, 0, 0, 0] [] 0 rfl⟩

/-- C5: `deserialMapFn` succeeds whenever the corresponding sequence of
key/value pairs decodes, building the object by JS assignment in input
order; for every key — duplicates included — the resulting object holds
exactly the value of that key's last occurrence (last write wins,
duplicates neither deduplicated into failure nor rejected). -/
theorem deserialMapFn_last_write_wins (K V : Type) [DecidableEq K]
    (dk : List Nat → DRes K) (dv : List Nat → DRes V)
    (s s₁ s₂ : List Nat) (L : Nat) (ps : List (K × V))
    (hlen : deserialUint32 s = (.ok L, s₁))
    (hps : repDeserial (deserialTupleFn dk dv) L s₁ = (.ok ps, s₂)) :
    deserialMapFn dk dv s = (.ok (buildRecord ps), s₂)
    ∧ ∀ k, recLookup (buildRecord ps) k = lastLookup ps k := by
  constructor
  · rw [show deserialMapFn dk dv s = mapDeserial dk dv L [] s₁ from
      dbind_ok hlen]
    exact mapDeserial_eq_foldl L s₁ [] ps s₂ hps
  · intro k
    unfold buildRecord
    rw [foldl_insertRec_lookup]
    cases lastLookup ps k with
    | some v => rfl
    | none => rfl

/-- Witness for C5 on a two-pair input whose keys collide (key 7 mapped
first to 1, then to 2): the decoded object holds 2 at key 7. -/
theorem deserialMapFn_last_write_wins_witness :
    deserialUint32 [2, 0, 0, 0, 7, 1, 7, 2] = (.ok 2, [7, 1, 7, 2])
    ∧ repDeserial (deserialTupleFn deserialUint8 deserialUint8) 2 [7, 1, 7, 2]
        = (.ok [(7, 1), (7, 2)], [])
    ∧ (deserialMapFn deserialUint8 deserialUint8 [2, 0, 0, 0, 7, 1, 7, 2]
        = (.ok (buildRecord [(7, 1), (7, 2)]), [])
      ∧ ∀ k, recLookup (buildRecord [(7, 1), (7, 2)]) k
          = lastLookup [(7, 1), (7, 2)] k) :=
  ⟨rfl, rfl, deserialMapFn_last_write_wins Nat Nat deserialUint8 deserialUint8
    [2, 0, 0, 0, 7, 1, 7, 2] [7, 1, 7, 2] [] 2 [(7, 1), (7, 2)] rfl rfl⟩

/-- C7: `deserialContract` decodes state, then init, then receive, in
that fixed order: on the asymmetric contract bytes
`[1,2, 0, 1,0,0,0, 1,0,0,0,102, 0]` the option decoder first consumes
`[1,2]` (state = `Some U8`), then `[0]` (init = `None`), then the
receive map consumes the rest (`{"f": Unit}`), composing to
`deserialContract`'s result; and the claim's module bytes — one contract
named "a" with no state, no init and an empty receive map — decode to
exactly that module. -/
theorem deserialContract_order_and_example :
    deserialModule [1, 0, 0, 0, 1, 0, 0, 0, 97, 0, 0, 0, 0, 0, 0]
      = (.ok [("a", ⟨Option.none, Option.none, []⟩)], [])
    ∧ deserialOptionFn deserialType [1, 2, 0, 1, 0, 0, 0, 1, 0, 0, 0, 102, 0]
        = (.ok (some (.leaf 2)), [0, 1, 0, 0, 0, 1, 0, 0, 0, 102, 0])
    ∧ deserialOptionFn deserialType [0, 1, 0, 0, 0, 1, 0, 0, 0, 102, 0]
        = (.ok Option.none, [1, 0, 0, 0, 1, 0, 0, 0, 102, 0])
    ∧ deserialMapFn deserialString deserialType [1, 0, 0, 0, 1, 0, 0, 0, 102, 0]
        = (.ok [("f", .leaf 0)], [])
    ∧ deserialContract [1, 2, 0, 1, 0, 0, 0, 1, 0, 0, 0, 102, 0]
        = (.ok ⟨some (.leaf 2), Option.none, [("f", .leaf 0)]⟩, []) :=
  ⟨rfl, rfl, rfl, rfl, rfl⟩

/-- C1: the Byte Reader returns exactly `n` bytes or fails, and
accumulating bytes across the deliveries of a chunked source is
transparent: reading through any chunking of a payload returns the same
result as a single delivery of the whole payload, so `deserialUint8` and
`deserialUint32` decode identically however the input is split. -/
theorem byteReader_exact_and_chunk_independent :
    (∀ (n : Nat) (cs : List (List Nat)) (bs : List Nat)
        (cs' : List (List Nat)),
      readExactChunks n cs = (.ok bs, cs') → bs.length = n)
    ∧ (∀ cs : List (List Nat),
        (deserialUint8C cs).1 = (deserialUint8C [cs.flatten]).1
        ∧ (deserialUint32C cs).1 = (deserialUint32C [cs.flatten]).1) := by
  constructor
  · intro n cs bs cs' h
    have hv := (readExactChunks_flatten cs n).1
    rw [h] at hv
    unfold readExact at hv
    by_cases hn : n ≤ cs.flatten.length
    · rw [if_pos hn] at hv
      simp only [Except.ok.injEq] at hv
      rw [hv, List.length_take]
      omega
    · rw [if_neg hn] at hv
      simp at hv
  · intro cs
    have h8 : (readExactChunks 1 cs).1 = (readExactChunks 1 [cs.flatten]).1 := by
      rw [(readExactChunks_flatten cs 1).1,
        (readExactChunks_flatten [cs.flatten] 1).1]
      simp
    have h32 : (readExactChunks 4 cs).1 = (readExactChunks 4 [cs.flatten]).1 := by
      rw [(readExactChunks_flatten cs 4).1,
        (readExactChunks_flatten [cs.flatten] 4).1]
      simp
    constructor
    · unfold deserialUint8C
      cases hc : readExactChunks 1 cs with
      | mk v cs1 =>
        cases hf : readExactChunks 1 [cs.flatten] with
        | mk w cs2 =>
          rw [hc, hf] at h8
          simp only at h8
          subst h8
          cases v with
          | ok bs => rfl
          | error e => rfl
    · unfold deserialUint32C
      cases hc : readExactChunks 4 cs with
      | mk v cs1 =>
        cases hf : readExactChunks 4 [cs.flatten] with
        | mk w cs2 =>
          rw [hc, hf] at h32
          simp only at h32
          subst h32
          cases v with
          | ok bs => rfl
          | error e => rfl

/-- Witness for C1: a two-byte read across two one-byte deliveries. -/
theorem byteReader_exact_witness :
    readExactChunks 2 [[1], [2]] = (.ok [1, 2], [[]])
    ∧ ([1, 2] : List Nat).length = 2 :=
  ⟨rfl, byteReader_exact_and_chunk_independent.1 2 [[1], [2]] [1, 2] [[]] rfl⟩

/-- C2: a read of `n` bytes from a source that closed with fewer than `n`
available fails with the end-of-input condition — a condition distinct
from every malformed-tag condition — and consequently a decode over
truncated input (here a module promising one contract and then ending)
aborts with that error, returning no value at all, partial or
otherwise. -/
theorem endOfInput_distinct_and_no_partial :
    (∀ (n : Nat) (s : List Nat), s.length < n
        → readExact n s = (.error .endOfInput, s))
    ∧ (∀ s : List Nat, s.length < 4
        → deserialUint32 s = (.error .endOfInput, s))
    ∧ deserialModule [1, 0, 0, 0] = (.error .endOfInput, [])
    ∧ (∀ t : Nat,
        Err.endOfInput ≠ Err.unsupportedTypeTag t
        ∧ Err.endOfInput ≠ Err.unsupportedFieldsTag t
        ∧ Err.endOfInput ≠ Err.unsupportedOptionTag t) := by
  refine ⟨?_, ?_, rfl, ?_⟩
  · intro n s h
    unfold readExact
    rw [if_neg (by omega)]
  · intro s h
    have hre : readExact 4 s = (.error .endOfInput, s) := by
      unfold readExact
      rw [if_neg (by omega)]
    exact dbind_error hre
  · intro t
    exact ⟨fun h => Err.noConfusion h, fun h => Err.noConfusion h,
      fun h => Err.noConfusion h⟩

/-- Witness for C2: a one-byte read from an empty source and a `u32` read
from a one-byte source. -/
theorem endOfInput_witness :
    ([] : List Nat).length < 1
    ∧ readExact 1 [] = (.error .endOfInput, [])
    ∧ ([9] : List Nat).length < 4
    ∧ deserialUint32 [9] = (.error .endOfInput, [9]) :=
  ⟨by simp, endOfInput_distinct_and_no_partial.1 1 [] (by simp),
    by simp, endOfInput_distinct_and_no_partial.2.1 [9] (by simp)⟩

end ConcordiumSchema
